import Mathlib

/-!
# Verification of `check_updates.py`

A shallow embedding of the dependency-update checker and proofs of the
specification claims about it.

The program reads a `requirements.txt` manifest, extracts one dependency
record per line with the regex `([^<>= ]+)[<>= ]{2,4}(.+)` (via
`re.search`), enriches each record with the latest registry version using a
pool of five concurrent workers connected by two queues, and finally sorts
and groups the records by the predicate
`item.last_version != item.required_version`.

Modelling conventions:
- Python strings are `String`/`List Char`; manifest lines are modelled
  without their trailing newline character.  This is exact: no character
  class of the regex above can ever match across or include `\n` in a way
  that changes a result (`.` excludes `\n`, and a trailing `\n` matched by
  `[^<>= ]+` can never be followed by the two comparator characters the
  pattern then requires).
- Python `None` for an optional string is `Option.none`.
- Python exceptions are values of `PyError`; a function that can raise
  returns `Except PyError _`.
- The fetch pipeline's concurrency is a small-step relation `PoolStep` on
  `PoolState`; any interleaving of the five workers is a `PoolReach`
  derivation, and `args.join()` returning corresponds to a `Quiescent`
  state.
-/

/-- `Package` from the source: a `NamedTuple` with fields `name`,
`required_version` and `last_version` (defaulting to `None`). -/
structure Package where
  name : String
  required_version : String
  last_version : Option String := none
deriving DecidableEq

/-- The record constructed by `worker` after a lookup:
`Package(name=package.name, required_version=package.required_version,
last_version=last_version)`.  It is a fresh value; the argument is not
mutated (Python `NamedTuple`s are immutable). -/
def enrich (p : Package) (lv : Option String) : Package :=
  { name := p.name, required_version := p.required_version, last_version := lv }

/-- The sort/group key from `main`:
`lambda item: item.last_version != item.required_version`.
Python's `!=` between `None` and a `str` is `True`; between two `str`s it
is string inequality. -/
def hasUpdateKey (p : Package) : Bool :=
  match p.last_version with
  | none => true
  | some v => v != p.required_version

/-! ## The manifest-line regex

`pattern = re.compile(r'([^<>= ]+)[<>= ]{2,4}(.+)')`, used with
`pattern.search(line)`.  We model the Python `re` engine's behaviour on
this particular pattern on newline-free inputs:

- `search` tries each start position left to right and returns the first
  match.
- At a position, `[^<>= ]+` is greedy and never usefully backtracks: any
  shorter capture would leave a non-comparator character where
  `[<>= ]{2,4}` must match, so the capture is exactly the maximal run of
  non-comparator characters.
- `[<>= ]{2,4}` then tries the largest repetition count `b ≤ min(run, 4)`
  first and backtracks down to 2; `( .+)` succeeds exactly when at least
  one character remains (on newline-free input `.` matches every
  character), i.e. when `b < rest.length`.
-/

/-- Membership in the character class `[<>= ]`. -/
def isCmpChar (c : Char) : Bool :=
  c == '<' || c == '>' || c == '=' || c == ' '

/-- Backtracking of the `{2,4}` quantifier: try repetition count `b`
starting from the greedy maximum and going down to 2, succeeding as soon
as `(.+)` has at least one character left (`b < rest.length`). -/
def tryQuant (rest : List Char) : Nat → Option Nat
  | 0 => none
  | b + 1 =>
    if 2 ≤ b + 1 && b + 1 < rest.length then some (b + 1)
    else tryQuant rest b

/-- Attempt to match `([^<>= ]+)[<>= ]{2,4}(.+)` at the start of `s`,
returning the two capture groups. -/
def matchFrom (s : List Char) : Option (List Char × List Char) :=
  let name := s.takeWhile (fun c => ! isCmpChar c)
  let rest := s.dropWhile (fun c => ! isCmpChar c)
  if name.isEmpty then none
  else
    let r := (rest.takeWhile isCmpChar).length
    match tryQuant rest (min r 4) with
    | some b => some (name, rest.drop b)
    | none => none

/-- `pattern.search(line)`: the leftmost position at which the pattern
matches, or `none`. -/
def searchPat : List Char → Option (List Char × List Char)
  | [] => none
  | c :: cs =>
    match matchFrom (c :: cs) with
    | some res => some res
    | none => searchPat cs

/-! ## Errors and the manifest reader -/

/-- The Python exceptions this program can raise or catch. -/
inductive PyError
  /-- e.g. `'NoneType' object has no attribute 'groups'` -/
  | attributeError (msg : String)
  /-- raised by `d[k]` when `k` is missing -/
  | keyError (key : String)
  /-- raised by subscripting a non-dict value -/
  | typeError (msg : String)
  /-- an exception raised by `session.get` (network error, timeout) or by
  `resp.json()` (undecodable body) -/
  | clientError (msg : String)
deriving DecidableEq

/-- The exception raised by `pattern.search(requirement).groups()` when
`search` returns `None`.  Its message is a fixed constant of the Python
runtime; in particular it does not mention the offending line. -/
def noneTypeGroupsErr : PyError :=
  .attributeError "NoneType object has no attribute groups"

/-- `pattern.search(requirement).groups()` followed by
`Package(name=name, required_version=version)`: the record a matching
line yields. -/
def extractPkg (l : List Char) : Option Package :=
  (searchPat l).map fun nv =>
    { name := String.mk nv.1, required_version := String.mk nv.2 }

/-- One iteration of the loop body in `get_packages`: a matching line
yields a record; a non-matching line raises `AttributeError` (calling
`.groups()` on `None`). -/
def parseLine (l : List Char) : Except PyError Package :=
  match extractPkg l with
  | some p => .ok p
  | none => .error noneTypeGroupsErr

/-- The `async for` loop of `get_packages` over the file's lines: records
are yielded in order until the first non-matching line, whose
`AttributeError` aborts the generator.  Returns the yielded records and
the exception, if any. -/
def getPackages : List (List Char) → List Package × Option PyError
  | [] => ([], none)
  | l :: ls =>
    match parseLine l with
    | .ok p =>
      let res := getPackages ls
      (p :: res.1, res.2)
    | .error e => ([], some e)

/-- `get_packages` including the existence check on
`requirements.txt`: a missing file prints `"Requirements file not found"`
to stderr and yields nothing.  The manifest is `none` when the file does
not exist, `some lines` otherwise.  Returns (records, exception, stderr
output). -/
def getPackagesFile (manifest : Option (List (List Char))) :
    List Package × Option PyError × List String :=
  match manifest with
  | none => ([], none, ["Requirements file not found"])
  | some lines =>
    let res := getPackages lines
    (res.1, res.2, [])

/-! ## The registry client -/

/-- A JSON value, as far as this program inspects one: the program only
subscripts with `['info']['version']` and stores the result, which for
the registry's documents is a string. -/
inductive Json
  | str (s : String)
  | obj (fields : List (String × Json))

/-- Python subscripting `j[k]`: a `dict` lookup raising `KeyError` on a
missing key; subscripting a string with a string key raises
`TypeError`. -/
def Json.getItem : Json → String → Except PyError Json
  | .str _, _ => .error (.typeError "str indices must be integers")
  | .obj fs, k =>
    match fs.lookup k with
    | some v => .ok v
    | none => .error (.keyError k)

/-- The outcome of `await session.get(url)` together with the body that
`await resp.json()` would produce: either the `get` itself raised, or a
response arrived with some status, whose body either decodes to a JSON
value or raises when decoded. -/
inductive GetOutcome
  | raised (e : PyError)
  | response (status : Nat) (body : Except PyError Json)

/-- `get_last_version` from the source.  The `try` block covers only
`session.get`: an exception there is printed to stderr and `None` is
returned.  On a non-200 status the function falls through and returns
`None`.  On a 200 status it evaluates `(await resp.json())['info']['version']`
*outside* any handler, so a body that fails to decode, or lacks the
`info` or `version` key, raises out of the function.  (If `version` held
a non-string JSON value the source would return that value as-is; this
model restricts `last_version` to strings and flags that branch as a
`TypeError` — no theorem below depends on it.) -/
def getLastVersion (o : GetOutcome) : Except PyError (Option String) :=
  match o with
  | .raised _ => .ok none
  | .response status body =>
    if status = 200 then
      match body with
      | .error e => .error e
      | .ok j =>
        match j.getItem "info" with
        | .error e => .error e
        | .ok info =>
          match info.getItem "version" with
          | .error e => .error e
          | .ok (.str s) => .ok (some s)
          | .ok (.obj _) => .error (.typeError "version is not a string")
    else .ok none

/-- One iteration of `worker` on a dequeued package, given the outcome of
its lookup: `worker` has no exception handler, so an exception raised by
`get_last_version` propagates; otherwise the enriched record is produced
and pushed to the result queue. -/
def processPackage (p : Package) (o : GetOutcome) : Except PyError Package :=
  match getLastVersion o with
  | .ok lv => .ok (enrich p lv)
  | .error e => .error e

/-! ## Aggregation (`main`) -/

/-- `packages.sort(key=key)` for the boolean key `hasUpdateKey`:
Python's sort is stable and `False < True`, so sorting by a boolean key
is exactly the stable partition — all `false`-keyed records in their
original order, then all `true`-keyed records in theirs. -/
def pySortByKey (ps : List Package) : List Package :=
  ps.filter (fun p => ! hasUpdateKey p) ++ ps.filter hasUpdateKey

/-- `itertools.groupby(xs, key)`: consecutive runs of equal key, each run
paired with its key. -/
def pyGroupby {α β : Type} [DecidableEq β] (key : α → β) : List α → List (β × List α)
  | [] => []
  | x :: xs =>
    match pyGroupby key xs with
    | [] => [(key x, [x])]
    | (k, g) :: rest =>
      if key x = k then (k, x :: g) :: rest
      else (key x, [x]) :: (k, g) :: rest

/-- The sort-and-partition step of `main`: sort by the has-update key,
then group consecutive equal keys. -/
def aggregateGroups (ps : List Package) : List (Bool × List Package) :=
  pyGroupby hasUpdateKey (pySortByKey ps)

/-! ## The worker pool (`bound`) -/

/-- The shared state of the pipeline: the work queue (FIFO), the multiset
of records currently held by workers (dequeued, lookup in flight, not yet
marked done), and the result queue's contents. -/
structure PoolState where
  work : List Package
  inflight : Multiset Package
  results : List Package
deriving DecidableEq

/-- The state after `bound` has enqueued every parsed record and started
the workers: all records in the work queue, nothing in flight, no
results. -/
def initState (input : List Package) : PoolState :=
  { work := input, inflight := 0, results := [] }

/-- One atomic step of the pipeline, for a fixed registry oracle giving
each name's lookup result at the `get_last_version` boundary.
`take`: a worker returns from `await args.get()` (at most 5 workers
exist, so at most 5 records are in flight).  `finish`: a worker completes
its lookup, pushes the enriched record (`results.put` on an unbounded
queue never suspends) and immediately calls `args.task_done()` — the two
happen with no intervening suspension point, hence as one step. -/
inductive PoolStep (oracle : String → Option String) : PoolState → PoolState → Prop
  | take (p : Package) (rest : List Package) (q : Multiset Package)
      (res : List Package) (hcard : Multiset.card q < 5) :
      PoolStep oracle ⟨p :: rest, q, res⟩ ⟨rest, p ::ₘ q, res⟩
  | finish (p : Package) (w : List Package) (q : Multiset Package)
      (res : List Package) (hmem : p ∈ q) :
      PoolStep oracle ⟨w, q, res⟩ ⟨w, q.erase p, enrich p (oracle p.name) :: res⟩

/-- All interleavings of the workers: the reflexive-transitive closure of
`PoolStep`. -/
inductive PoolReach (oracle : String → Option String) (s₀ : PoolState) : PoolState → Prop
  | refl : PoolReach oracle s₀ s₀
  | step {s₁ s₂ : PoolState} :
      PoolReach oracle s₀ s₁ → PoolStep oracle s₁ s₂ → PoolReach oracle s₀ s₂

/-- `await args.join()` returns exactly when every enqueued record has
been marked done: no record waits in the queue and none is held by a
worker. -/
def Quiescent (s : PoolState) : Prop :=
  s.work = [] ∧ s.inflight = 0

/-- Forget the enrichment: the record as the manifest reader created it. -/
def strip (p : Package) : Package :=
  { name := p.name, required_version := p.required_version, last_version := none }

/-! ## The end-to-end run (`main`) -/

/-- `bound`: parse the manifest, enqueue everything, run the pool to
quiescence, drain the result queue.  A parse error while enqueueing
propagates out of `bound`.  The result list is written here in one
admissible linearization (workers process records in manifest order); the
pool theorems below show every interleaving yields this same multiset. -/
def boundModel (manifest : Option (List (List Char)))
    (oracle : String → Option String) :
    Except PyError (List Package × List String) :=
  match getPackagesFile manifest with
  | (ps, none, diags) => .ok (ps.map (fun p => enrich p (oracle p.name)), diags)
  | (_, some e, _) => .error e

/-- `main`: run `bound`, sort and group, print, return.  Produces the
report groups, the stderr lines and the exit status; an uncaught
exception from `bound` propagates (Python would exit nonzero with a
traceback). -/
def mainModel (manifest : Option (List (List Char)))
    (oracle : String → Option String) :
    Except PyError (List (Bool × List Package) × List String × Nat) :=
  match boundModel manifest oracle with
  | .ok (pkgs, diags) => .ok (aggregateGroups pkgs, diags, 0)
  | .error e => .error e

/-! ## Claim C2: the has-update classification -/

/-- **C2** (confirmed).  The aggregation key classifies a record as
having an update exactly when `last_version` is absent or differs from
`required_version`, and as up to date exactly when the two are equal:
Python's `item.last_version != item.required_version` is `True` for
`None` against any string and is string inequality otherwise. -/
theorem hasUpdate_iff_absent_or_differs (p : Package) :
    (hasUpdateKey p = true ↔
      (p.last_version = none ∨ p.last_version ≠ some p.required_version)) ∧
    (hasUpdateKey p = false ↔ p.last_version = some p.required_version) := by
  cases hp : p.last_version with
  | none => simp [hasUpdateKey, hp]
  | some v =>
    simp only [hasUpdateKey, hp]
    constructor
    · constructor
      · intro h
        right
        simpa using h
      · intro h
        rcases h with h | h
        · exact absurd h (by simp)
        · simpa using h
    · constructor
      · intro h
        simpa using h
      · intro h
        simpa using h

/-! ## Claim C9: enrichment is frame-preserving -/

/-- **C9** (confirmed).  `worker` rebuilds the record as
`Package(name=package.name, required_version=package.required_version,
last_version=last_version)`: only `last_version` changes; `name` and
`required_version` are copied from the input record, which — being an
immutable `NamedTuple` in a purely functional model — is itself
untouched. -/
theorem enrich_frame (p : Package) (lv : Option String) :
    (enrich p lv).name = p.name ∧
    (enrich p lv).required_version = p.required_version ∧
    (enrich p lv).last_version = lv := by
  exact ⟨rfl, rfl, rfl⟩

/-! ## Claim C5: a missing manifest is non-fatal -/

/-- **C5** (confirmed).  When `requirements.txt` does not exist,
`get_packages` prints `"Requirements file not found"` to stderr and
returns without yielding; `bound` then finds nothing to enqueue, `main`
sorts and groups an empty list producing an empty report, and the process
returns normally (exit status 0) — no exception is raised. -/
theorem missing_manifest_nonfatal (oracle : String → Option String) :
    getPackagesFile none = ([], none, ["Requirements file not found"]) ∧
    mainModel none oracle = .ok ([], ["Requirements file not found"], 0) :=
  ⟨rfl, rfl⟩

/-! ## Claim C8: aggregation is idempotent -/

/-- **C8** (confirmed).  The sort-and-partition step of `main` is a pure
function and is idempotent: sorting an already-sorted list by the
boolean has-update key changes nothing, so running the aggregation a
second time on its own sorted output yields identical groupings. -/
theorem aggregation_idempotent (ps : List Package) :
    aggregateGroups (pySortByKey ps) = aggregateGroups ps ∧
    pySortByKey (pySortByKey ps) = pySortByKey ps := by
  have hsort : pySortByKey (pySortByKey ps) = pySortByKey ps := by
    unfold pySortByKey
    simp [List.filter_append, List.filter_filter]
  exact ⟨by unfold aggregateGroups; rw [hsort], hsort⟩

/-! ## Claims C4 and C10: non-matching and blank manifest lines -/

/-- A line on which `search` succeeds contributes its record and the
iteration continues. -/
theorem getPackages_cons_ok (l : List Char) (p : Package) (ls : List (List Char))
    (h : extractPkg l = some p) :
    getPackages (l :: ls) = (p :: (getPackages ls).1, (getPackages ls).2) := by
  simp [getPackages, parseLine, h]

/-- Reaching a non-matching line: every earlier (matching) line has
yielded its record, and the non-matching line raises the constant
`AttributeError`, ending the iteration. -/
theorem getPackages_split (pre : List (List Char)) (line : List Char)
    (post : List (List Char))
    (hpre : ∀ l ∈ pre, (extractPkg l).isSome)
    (hline : extractPkg line = none) :
    getPackages (pre ++ line :: post) =
      (pre.filterMap extractPkg, some noneTypeGroupsErr) := by
  induction pre with
  | nil => simp [getPackages, parseLine, hline]
  | cons l pre ih =>
    have hl : (extractPkg l).isSome := hpre l (by simp)
    obtain ⟨p, hp⟩ := Option.isSome_iff_exists.mp hl
    have hrest := ih (fun x hx => hpre x (by simp [hx]))
    rw [List.cons_append, getPackages_cons_ok l p _ hp, hrest]
    simp [List.filterMap_cons, hp]

/-- **C4** (amended; the claim as stated is refuted by
`unmatched_line_error_constant`).  A manifest line that does not match
the pattern makes `pattern.search` return `None`, and the unguarded
`.groups()` call raises `AttributeError` — a fixed exception value that
does not carry the offending line — which aborts the whole iteration:
records are yielded only for the matching lines before it. -/
theorem unmatched_line_raises (pre : List (List Char)) (line : List Char)
    (post : List (List Char))
    (hpre : ∀ l ∈ pre, (extractPkg l).isSome)
    (hline : searchPat line = none) :
    parseLine line = .error noneTypeGroupsErr ∧
    getPackages (pre ++ line :: post) =
      (pre.filterMap extractPkg, some noneTypeGroupsErr) := by
  have hext : extractPkg line = none := by simp [extractPkg, hline]
  exact ⟨by simp [parseLine, hext], getPackages_split pre line post hpre hext⟩

/-- Witness for `unmatched_line_raises`: one matching line, then the
non-matching line `flask`, then another matching line that is never
reached. -/
theorem unmatched_line_raises_witness :
    (∀ l ∈ [['a', '=', '=', '1']], (extractPkg l).isSome) ∧
    searchPat ['f', 'l', 'a', 's', 'k'] = none ∧
    parseLine ['f', 'l', 'a', 's', 'k'] = .error noneTypeGroupsErr ∧
    getPackages ([['a', '=', '=', '1']] ++
        ['f', 'l', 'a', 's', 'k'] :: [['b', '=', '=', '2']]) =
      ([['a', '=', '=', '1']].filterMap extractPkg, some noneTypeGroupsErr) := by
  have h1 : ∀ l ∈ [['a', '=', '=', '1']], (extractPkg l).isSome := by decide
  have h2 : searchPat ['f', 'l', 'a', 's', 'k'] = none := by decide
  have h3 := unmatched_line_raises [['a', '=', '=', '1']] ['f', 'l', 'a', 's', 'k']
    [['b', '=', '=', '2']] h1 h2
  exact ⟨h1, h2, h3.1, h3.2⟩

/-- Counterexample to **C4** as stated: the exception signalled for a
non-matching line is the same constant `AttributeError` whatever the
line is — for the two distinct offending lines `flask` and `numpy` the
raised error is one and the same value, so it cannot carry the offending
line; and it is fatal to the whole run, not only to that line (a
well-formed line after it yields no record). -/
theorem unmatched_line_error_constant :
    parseLine ['f', 'l', 'a', 's', 'k'] = .error noneTypeGroupsErr ∧
    parseLine ['n', 'u', 'm', 'p', 'y'] = .error noneTypeGroupsErr ∧
    parseLine ['f', 'l', 'a', 's', 'k'] = parseLine ['n', 'u', 'm', 'p', 'y'] ∧
    getPackages [['f', 'l', 'a', 's', 'k'], ['o', 'k', '=', '=', '1']] =
      ([], some noneTypeGroupsErr) :=
  ⟨rfl, rfl, rfl, rfl⟩

/-- A line consisting solely of spaces never matches the pattern: at
every start position `[^<>= ]+` fails, since every character is in the
comparator class. -/
theorem searchPat_all_spaces (l : List Char) (h : ∀ c ∈ l, c = ' ') :
    searchPat l = none := by
  induction l with
  | nil => rfl
  | cons c cs ih =>
    have hc : c = ' ' := h c (by simp)
    have hcs : searchPat cs = none := ih (fun x hx => h x (by simp [hx]))
    subst hc
    simp [searchPat, matchFrom, hcs, List.takeWhile_cons, isCmpChar]

/-- **C10** (amended; the claim as stated is refuted by
`whitespace_line_matches`).  Blank lines are not skipped: every line is
fed to the extraction pattern, and an empty line — or a line of spaces
only — fails to match, so the reader raises the unhandled
`AttributeError` upon reaching it and yields no records for the
remaining lines.  (Not every whitespace-only line fails, however: see
the counterexample.) -/
theorem blank_line_raises (pre : List (List Char)) (line : List Char)
    (post : List (List Char))
    (hpre : ∀ l ∈ pre, (extractPkg l).isSome)
    (hblank : line = [] ∨ ∀ c ∈ line, c = ' ') :
    searchPat line = none ∧
    getPackages (pre ++ line :: post) =
      (pre.filterMap extractPkg, some noneTypeGroupsErr) := by
  have hs : searchPat line = none := by
    rcases hblank with h | h
    · subst h; rfl
    · exact searchPat_all_spaces line h
  have hext : extractPkg line = none := by simp [extractPkg, hs]
  exact ⟨hs, getPackages_split pre line post hpre hext⟩

/-- Witness for `blank_line_raises`: a matching line, then an empty
line, then a matching line that is never reached. -/
theorem blank_line_raises_witness :
    (∀ l ∈ [['a', '=', '=', '1']], (extractPkg l).isSome) ∧
    (([] : List Char) = [] ∨ ∀ c ∈ ([] : List Char), c = ' ') ∧
    getPackages ([['a', '=', '=', '1']] ++ ([] : List Char) :: [['b', '=', '=', '2']]) =
      ([['a', '=', '=', '1']].filterMap extractPkg, some noneTypeGroupsErr) := by
  have h1 : ∀ l ∈ [['a', '=', '=', '1']], (extractPkg l).isSome := by decide
  have h2 : (([] : List Char) = [] ∨ ∀ c ∈ ([] : List Char), c = ' ') := Or.inl rfl
  exact ⟨h1, h2, (blank_line_raises _ _ _ h1 h2).2⟩

/-- Counterexample to **C10** as stated: a whitespace-only line need not
raise.  The line tab–space–space–tab consists only of whitespace, yet it
matches the pattern (`\t` is not in the comparator class and `.` matches
it), so the reader yields a record for it and raises nothing. -/
theorem whitespace_line_matches :
    (∀ c ∈ ['\t', ' ', ' ', '\t'], c = ' ' ∨ c = '\t') ∧
    ['\t', ' ', ' ', '\t'] ≠ [] ∧
    getPackages [['\t', ' ', ' ', '\t']] =
      ([{ name := String.mk ['\t'], required_version := String.mk ['\t'],
          last_version := none }], none) := by
  exact ⟨by decide, by decide, rfl⟩

/-! ## Claims C3 and C6: the registry lookup -/

/-- **C6** (confirmed).  `get_last_version` returns an absent version for
every response whose status is not 200 and for every `GET` that raises
(both outcomes are the same `None` downstream); a version is produced
only from an HTTP 200 response, and it is exactly the `info.version`
value of the JSON body. -/
theorem lookup_absent_unless_200 :
    (∀ e, getLastVersion (.raised e) = .ok none) ∧
    (∀ status body, status ≠ 200 →
      getLastVersion (.response status body) = .ok none) ∧
    (∀ o v, getLastVersion o = .ok (some v) →
      ∃ j info, o = .response 200 (.ok j) ∧
        j.getItem "info" = .ok info ∧
        info.getItem "version" = .ok (.str v)) := by
  refine ⟨fun e => rfl, fun status body h => by simp [getLastVersion, h], ?_⟩
  intro o v h
  cases o with
  | raised e => simp [getLastVersion] at h
  | response status body =>
    simp only [getLastVersion] at h
    by_cases hs : status = 200
    · subst hs
      rw [if_pos rfl] at h
      cases body with
      | error e => simp at h
      | ok j =>
        dsimp only at h
        cases hinfo : j.getItem "info" with
        | error e => rw [hinfo] at h; simp at h
        | ok info =>
          rw [hinfo] at h
          dsimp only at h
          cases hver : info.getItem "version" with
          | error e => rw [hver] at h; simp at h
          | ok w =>
            rw [hver] at h
            cases w with
            | str s =>
              simp only [Except.ok.injEq, Option.some.injEq] at h
              exact ⟨j, info, rfl, hinfo, by rw [hver, h]⟩
            | obj fs => simp at h
    · rw [if_neg hs] at h
      simp at h

/-- Witness for `lookup_absent_unless_200`: a 404 response yields an
absent version, and a 200 response whose body is
`{"info": {"version": "1.0"}}` yields exactly `"1.0"`. -/
theorem lookup_absent_unless_200_witness :
    ((404 : Nat) ≠ 200 ∧
      getLastVersion (.response 404 (.ok (Json.obj []))) = .ok none) ∧
    (getLastVersion (.response 200 (.ok (Json.obj
        [("info", Json.obj [("version", Json.str "1.0")])]))) = .ok (some "1.0") ∧
      ∃ j info,
        GetOutcome.response 200 (.ok (Json.obj
            [("info", Json.obj [("version", Json.str "1.0")])])) =
          .response 200 (.ok j) ∧
        j.getItem "info" = .ok info ∧
        info.getItem "version" = .ok (.str "1.0")) := by
  constructor
  · exact ⟨by decide, lookup_absent_unless_200.2.1 404 _ (by decide)⟩
  · exact ⟨rfl, lookup_absent_unless_200.2.2 _ "1.0" rfl⟩

/-- **C3** (amended; the claim as stated is refuted by
`malformed_200_propagates`).  Failures raised by the `GET` itself
(network error, timeout) are caught inside `get_last_version` — printed
to stderr, `None` returned — so they never propagate: the worker pushes
the record with `last_version` absent and continues with the remaining
names.  A non-200 response likewise yields an absent version.  But a
malformed *success* response — a 200 whose body fails to decode as JSON
or whose JSON lacks the `info.version` path — raises outside the `try`
block and propagates uncaught through `get_last_version` and the
worker. -/
theorem lookup_failure_recovery (p : Package) :
    (∀ e, processPackage p (.raised e) = .ok (enrich p none)) ∧
    (∀ status body, status ≠ 200 →
      processPackage p (.response status body) = .ok (enrich p none)) ∧
    (∀ e, processPackage p (.response 200 (.error e)) = .error e) ∧
    processPackage p (.response 200 (.ok (Json.obj []))) =
      .error (.keyError "info") := by
  refine ⟨fun e => rfl, ?_, fun e => rfl, rfl⟩
  intro status body h
  simp [processPackage, getLastVersion, h]

/-- Witness for `lookup_failure_recovery`: a timeout is recovered into an
absent version while a 500 response yields an absent version, both for a
concrete record. -/
theorem lookup_failure_recovery_witness :
    processPackage { name := "requests", required_version := "2.0.0" }
        (.raised (.clientError "timeout")) =
      .ok (enrich { name := "requests", required_version := "2.0.0" } none) ∧
    ((500 : Nat) ≠ 200 ∧
      processPackage { name := "requests", required_version := "2.0.0" }
          (.response 500 (.ok (Json.obj []))) =
        .ok (enrich { name := "requests", required_version := "2.0.0" } none)) :=
  ⟨(lookup_failure_recovery _).1 _,
    ⟨by decide, (lookup_failure_recovery _).2.1 500 _ (by decide)⟩⟩

/-- Counterexample to **C3** as stated: a 200 response whose JSON body
lacks the `info.version` field is *not* recovered — `get_last_version`
raises `KeyError`, and the worker, having no handler, propagates it. -/
theorem malformed_200_propagates :
    getLastVersion (.response 200 (.ok (Json.obj [("info", Json.obj [])]))) =
      .error (.keyError "version") ∧
    processPackage { name := "requests", required_version := "2.0.0" }
        (.response 200 (.ok (Json.obj [("info", Json.obj [])]))) =
      .error (.keyError "version") :=
  ⟨rfl, rfl⟩

/-! ## Claim C7: extraction on well-formed lines -/

/-- A well-formed manifest line: a non-empty name free of comparator
characters, a separator of 2–4 comparator characters, and a non-empty
version. -/
def WellFormedLine (line : List Char) : Prop :=
  ∃ nm sp vr : List Char,
    line = nm ++ sp ++ vr ∧ nm ≠ [] ∧ (∀ c ∈ nm, isCmpChar c = false) ∧
    2 ≤ sp.length ∧ sp.length ≤ 4 ∧ (∀ c ∈ sp, isCmpChar c = true) ∧ vr ≠ []

/-- `takeWhile` walks through a block of satisfying elements. -/
theorem takeWhile_append_all {p : Char → Bool} (l₁ l₂ : List Char)
    (h : ∀ c ∈ l₁, p c = true) :
    (l₁ ++ l₂).takeWhile p = l₁ ++ l₂.takeWhile p := by
  induction l₁ with
  | nil => simp
  | cons a t ih =>
    have ha : p a = true := h a (by simp)
    simp [List.takeWhile_cons, ha, ih (fun c hc => h c (by simp [hc]))]

/-- `dropWhile` discards a whole block of satisfying elements. -/
theorem dropWhile_append_all {p : Char → Bool} (l₁ l₂ : List Char)
    (h : ∀ c ∈ l₁, p c = true) :
    (l₁ ++ l₂).dropWhile p = l₂.dropWhile p := by
  induction l₁ with
  | nil => simp
  | cons a t ih =>
    have ha : p a = true := h a (by simp)
    simp [List.dropWhile_cons, ha, ih (fun c hc => h c (by simp [hc]))]

/-- `takeWhile` yields the *longest* prefix of satisfying elements: any
prefix all of whose elements satisfy `p` is no longer than it. -/
theorem takeWhile_maximal {p : Char → Bool} (q : List Char) :
    ∀ l : List Char, q <+: l → (∀ c ∈ q, p c = true) →
      q.length ≤ (l.takeWhile p).length := by
  induction q with
  | nil => intro l _ _; simp
  | cons a q ih =>
    intro l hq hall
    obtain ⟨t, rfl⟩ := hq
    have ha : p a = true := hall a (by simp)
    rw [List.cons_append, List.takeWhile_cons, if_pos ha]
    simpa using ih (q ++ t) (List.prefix_append q t)
      (fun c hc => hall c (by simp [hc]))

/-- What a successful quantifier trial guarantees. -/
theorem tryQuant_some_bounds (rest : List Char) :
    ∀ start b, tryQuant rest start = some b →
      2 ≤ b ∧ b ≤ start ∧ b < rest.length := by
  intro start
  induction start with
  | zero => intro b h; simp [tryQuant] at h
  | succ n ih =>
    intro b h
    simp only [tryQuant] at h
    by_cases hc : (2 ≤ n + 1 && n + 1 < rest.length) = true
    · rw [if_pos hc] at h
      simp only [Bool.and_eq_true, decide_eq_true_eq] at hc
      cases h
      exact ⟨hc.1, le_refl _, hc.2⟩
    · rw [if_neg hc] at h
      obtain ⟨h2, hle, hlt⟩ := ih b h
      exact ⟨h2, Nat.le_succ_of_le hle, hlt⟩

/-- The quantifier trial succeeds as soon as some admissible repetition
count exists below its starting point. -/
theorem tryQuant_isSome (rest : List Char) :
    ∀ start b, 2 ≤ b → b ≤ start → b < rest.length →
      (tryQuant rest start).isSome := by
  intro start
  induction start with
  | zero => intro b h2 hb _; omega
  | succ n ih =>
    intro b h2 hb hl
    simp only [tryQuant]
    by_cases hc : (2 ≤ n + 1 && n + 1 < rest.length) = true
    · rw [if_pos hc]; simp
    · rw [if_neg hc]
      have hc' : ¬(2 ≤ n + 1 ∧ n + 1 < rest.length) := by
        simpa using hc
      have hbn : b ≤ n := by
        rcases Nat.lt_or_ge b (n + 1) with h | h
        · omega
        · exact absurd ⟨by omega, by omega⟩ hc'
      exact ih b h2 hbn hl

/-- Elements of `l.take b` satisfy `p` whenever `b` stays within the
initial run `l.takeWhile p`. -/
theorem take_all_of_le_takeWhile {p : Char → Bool} (l : List Char) (b : Nat)
    (h : b ≤ (l.takeWhile p).length) : ∀ c ∈ l.take b, p c = true := by
  intro c hc
  have hsplit : l.takeWhile p ++ l.dropWhile p = l :=
    List.takeWhile_append_dropWhile p l
  rw [← hsplit, List.take_append_of_le_length h] at hc
  exact List.mem_takeWhile_imp (List.take_subset b (l.takeWhile p) hc)

/-- Soundness of `matchFrom`: a successful match at the start of `s`
captures exactly the maximal comparator-free prefix as the name, then a
2–4 character comparator run, then the non-empty remainder as the
version. -/
theorem matchFrom_sound (s n v : List Char)
    (h : matchFrom s = some (n, v)) :
    n = s.takeWhile (fun c => ! isCmpChar c) ∧ n ≠ [] ∧
    ∃ sep : List Char, 2 ≤ sep.length ∧ sep.length ≤ 4 ∧
      (∀ c ∈ sep, isCmpChar c = true) ∧ v ≠ [] ∧ s = n ++ sep ++ v := by
  simp only [matchFrom] at h
  split at h
  · simp at h
  next hempty =>
    split at h
    next b htq =>
      obtain ⟨h2, hle, hlt⟩ := tryQuant_some_bounds _ _ _ htq
      simp only [Option.some.injEq, Prod.mk.injEq] at h
      obtain ⟨hn, hv⟩ := h
      refine ⟨hn.symm, ?_, (s.dropWhile (fun c => ! isCmpChar c)).take b,
        ?_, ?_, ?_, ?_, ?_⟩
      · intro hcon
        rw [hcon] at hn
        rw [hn] at hempty
        exact hempty rfl
      · rwa [List.length_take, Nat.min_eq_left (Nat.le_of_lt hlt)]
      · rw [List.length_take]
        calc min b (s.dropWhile (fun c => ! isCmpChar c)).length
            ≤ b := Nat.min_le_left _ _
          _ ≤ min ((s.dropWhile (fun c => ! isCmpChar c)).takeWhile
                isCmpChar).length 4 := hle
          _ ≤ 4 := Nat.min_le_right _ _
      · exact take_all_of_le_takeWhile _ b
          (le_trans hle (Nat.min_le_left _ _))
      · rw [← hv]
        intro hcon
        rw [List.drop_eq_nil_iff] at hcon
        omega
      · rw [← hn, ← hv, List.append_assoc, List.take_append_drop]
        exact (List.takeWhile_append_dropWhile
          (fun c => ! isCmpChar c) s).symm
    next htq => simp at h

/-- On a well-formed line the pattern matches at position 0. -/
theorem matchFrom_isSome_of_wf (line : List Char) (h : WellFormedLine line) :
    (matchFrom line).isSome := by
  obtain ⟨nm, sp, vr, rfl, hnm, hnmall, hsp2, hsp4, hspall, hvr⟩ := h
  have hspcons : ∃ a t, sp = a :: t := by
    cases sp with
    | nil => simp at hsp2
    | cons a t => exact ⟨a, t, rfl⟩
  obtain ⟨a, t, rfl⟩ := hspcons
  have ha : isCmpChar a = true := hspall a (by simp)
  have hname : ((nm ++ (a :: t)) ++ vr).takeWhile (fun c => ! isCmpChar c) = nm := by
    rw [List.append_assoc,
      takeWhile_append_all nm ((a :: t) ++ vr) (fun c hc => by simp [hnmall c hc])]
    simp [List.takeWhile_cons, ha]
  have hrest : ((nm ++ (a :: t)) ++ vr).dropWhile (fun c => ! isCmpChar c) =
      (a :: t) ++ vr := by
    rw [List.append_assoc,
      dropWhile_append_all nm ((a :: t) ++ vr) (fun c hc => by simp [hnmall c hc])]
    simp [List.dropWhile_cons, ha]
  have hr : (a :: t).length ≤ (((a :: t) ++ vr).takeWhile isCmpChar).length :=
    takeWhile_maximal (a :: t) ((a :: t) ++ vr) (List.prefix_append _ _) hspall
  have hq : (tryQuant ((a :: t) ++ vr)
      (min (((a :: t) ++ vr).takeWhile isCmpChar).length 4)).isSome := by
    apply tryQuant_isSome _ _ 2 (le_refl 2)
    · have h2r : 2 ≤ (((a :: t) ++ vr).takeWhile isCmpChar).length :=
        le_trans hsp2 hr
      omega
    · have hvl : 1 ≤ vr.length := List.length_pos.mpr hvr
      rw [List.length_append]
      have h2sp : 2 ≤ (a :: t).length := hsp2
      omega
  simp only [matchFrom, hname, hrest]
  rw [if_neg (by simp [List.isEmpty_iff, hnm])]
  cases htq : tryQuant ((a :: t) ++ vr)
      (min (((a :: t) ++ vr).takeWhile isCmpChar).length 4) with
  | none => rw [htq] at hq; simp at hq
  | some b => simp

/-- A match at position 0 is the leftmost match. -/
theorem searchPat_eq_matchFrom (s : List Char) (res : List Char × List Char)
    (h : matchFrom s = some res) : searchPat s = some res := by
  cases s with
  | nil => simp [matchFrom] at h
  | cons c cs => simp [searchPat, h]

/-- **C7** (confirmed).  On every well-formed manifest line the
extraction succeeds, the captured name is the longest prefix of the line
containing none of `<`, `>`, `=`, space, and the captured version is
everything after a run of 2 to 4 of those comparator characters. -/
theorem wellformed_extraction (line : List Char) (h : WellFormedLine line) :
    ∃ n v sep : List Char,
      searchPat line = some (n, v) ∧
      (∀ c ∈ n, isCmpChar c = false) ∧
      (∀ q, q <+: line → (∀ c ∈ q, isCmpChar c = false) → q.length ≤ n.length) ∧
      2 ≤ sep.length ∧ sep.length ≤ 4 ∧ (∀ c ∈ sep, isCmpChar c = true) ∧
      line = n ++ sep ++ v := by
  obtain ⟨⟨n, v⟩, hmf⟩ :=
    Option.isSome_iff_exists.mp (matchFrom_isSome_of_wf line h)
  obtain ⟨hn, hne, sep, hs2, hs4, hsall, hvne, hdecomp⟩ :=
    matchFrom_sound line n v hmf
  refine ⟨n, v, sep, searchPat_eq_matchFrom line (n, v) hmf, ?_, ?_,
    hs2, hs4, hsall, hdecomp⟩
  · intro c hc
    rw [hn] at hc
    have := List.mem_takeWhile_imp hc
    simpa using this
  · intro q hq hall
    rw [hn]
    exact takeWhile_maximal q line hq (fun c hc => by simp [hall c hc])

/-- Witness for `wellformed_extraction`: the line `ab==1`. -/
theorem wellformed_extraction_witness :
    WellFormedLine ['a', 'b', '=', '=', '1'] ∧
    ∃ n v sep : List Char,
      searchPat ['a', 'b', '=', '=', '1'] = some (n, v) ∧
      (∀ c ∈ n, isCmpChar c = false) ∧
      (∀ q, q <+: ['a', 'b', '=', '=', '1'] →
        (∀ c ∈ q, isCmpChar c = false) → q.length ≤ n.length) ∧
      2 ≤ sep.length ∧ sep.length ≤ 4 ∧ (∀ c ∈ sep, isCmpChar c = true) ∧
      ['a', 'b', '=', '=', '1'] = n ++ sep ++ v := by
  have hwf : WellFormedLine ['a', 'b', '=', '=', '1'] :=
    ⟨['a', 'b'], ['=', '='], ['1'], by decide, by decide, by decide,
      by decide, by decide, by decide, by decide⟩
  exact ⟨hwf, wellformed_extraction _ hwf⟩

/-! ## Claim C1: the pipeline preserves the record count -/

/-- The pipeline invariant: records in the work queue and in flight are
still un-enriched, every result's `last_version` is its oracle answer,
and — counting multiplicity — work queue, in-flight records and
(un-enriched) results together are exactly the input. -/
theorem poolReach_invariant (oracle : String → Option String)
    (input : List Package) (hin : ∀ p ∈ input, p.last_version = none)
    (s : PoolState) (hreach : PoolReach oracle (initState input) s) :
    (∀ p ∈ s.work, p.last_version = none) ∧
    (∀ p ∈ s.inflight, p.last_version = none) ∧
    (∀ r ∈ s.results, r.last_version = oracle r.name) ∧
    ((s.work : Multiset Package) + s.inflight +
      Multiset.map strip (s.results : Multiset Package) =
      (input : Multiset Package)) := by
  induction hreach with
  | refl =>
    refine ⟨hin, by simp [initState], by simp [initState], ?_⟩
    simp [initState]
  | step hr hstep ih =>
    obtain ⟨hw, hq, hres, hms⟩ := ih
    cases hstep with
    | take p rest q res hcard =>
      refine ⟨fun x hx => hw x (by simp [hx]), ?_, hres, ?_⟩
      · intro x hx
        rcases Multiset.mem_cons.mp hx with h | h
        · subst h; exact hw x (by simp)
        · exact hq x h
      · rw [← hms, ← Multiset.cons_coe]
        simp only [Multiset.cons_add, Multiset.add_cons]
    | finish p w q res hmem =>
      refine ⟨hw, fun x hx => hq x (Multiset.mem_of_mem_erase hx), ?_, ?_⟩
      · intro x hx
        rcases List.mem_cons.mp hx with h | h
        · subst h; rfl
        · exact hres x h
      · rw [← hms, ← Multiset.cons_coe, Multiset.map_cons]
        have hp : strip (enrich p (oracle p.name)) = p := by
          have hnone : p.last_version = none := hq p hmem
          cases p
          simp only [strip, enrich] at *
          rw [← hnone]
        rw [hp]
        conv_rhs => rw [← Multiset.cons_erase hmem]
        simp only [Multiset.cons_add, Multiset.add_cons]

/-- **C1** (confirmed).  At quiescence — the point at which
`await args.join()` lets `bound` proceed, every enqueued record having
been marked done — the result queue holds exactly one enriched record
per input record: same count, no loss, no duplication (equality as
multisets of the results with the enrichment of the input). -/
theorem fetch_pipeline_complete (input : List Package)
    (oracle : String → Option String) (s : PoolState)
    (hin : ∀ p ∈ input, p.last_version = none)
    (hreach : PoolReach oracle (initState input) s)
    (hquiet : Quiescent s) :
    s.results.length = input.length ∧
    (s.results : Multiset Package) =
      Multiset.map (fun p => enrich p (oracle p.name))
        (input : Multiset Package) := by
  obtain ⟨hw, hq, hres, hms⟩ :=
    poolReach_invariant oracle input hin s hreach
  obtain ⟨hwork, hinf⟩ := hquiet
  rw [hwork, hinf] at hms
  simp only [Multiset.coe_nil, zero_add, add_zero] at hms
  constructor
  · have hcard := congrArg Multiset.card hms
    simpa using hcard
  · have hmap : Multiset.map (fun p => enrich p (oracle p.name))
        (Multiset.map strip (s.results : Multiset Package)) =
        (s.results : Multiset Package) := by
      rw [Multiset.map_map]
      have hcongr : Multiset.map
          ((fun p => enrich p (oracle p.name)) ∘ strip)
          (s.results : Multiset Package) =
          Multiset.map id (s.results : Multiset Package) := by
        apply Multiset.map_congr rfl
        intro r hr
        have hlast := hres r (Multiset.mem_coe.mp hr)
        cases r with
        | mk nm rv lv =>
          simp only [Function.comp, strip, enrich, id]
          simp only at hlast
          rw [← hlast]
      rw [hcongr, Multiset.map_id]
    rw [← hms, hmap]

/-- Witness for `fetch_pipeline_complete`: a one-record manifest run to
quiescence by an explicit schedule (one `take`, one `finish`); the
result queue then holds exactly one record. -/
theorem fetch_pipeline_complete_witness :
    (∀ p ∈ [({ name := "requests", required_version := "2.0.0" } : Package)],
      p.last_version = none) ∧
    PoolReach (fun _ => some "2.1.0")
      (initState [{ name := "requests", required_version := "2.0.0" }])
      ⟨[], 0, [enrich { name := "requests", required_version := "2.0.0" }
        (some "2.1.0")]⟩ ∧
    Quiescent ⟨[], 0, [enrich { name := "requests", required_version := "2.0.0" }
      (some "2.1.0")]⟩ ∧
    ([enrich ({ name := "requests", required_version := "2.0.0" } : Package)
      (some "2.1.0")]).length =
      ([({ name := "requests", required_version := "2.0.0" } : Package)]).length := by
  have hin : ∀ p ∈ [({ name := "requests", required_version := "2.0.0" } : Package)],
      p.last_version = none := by
    intro p hp
    simp only [List.mem_singleton] at hp
    subst hp
    rfl
  have hstep1 : PoolStep (fun _ => some "2.1.0")
      (initState [{ name := "requests", required_version := "2.0.0" }])
      ⟨[], ({ name := "requests", required_version := "2.0.0" } : Package) ::ₘ 0, []⟩ :=
    PoolStep.take _ [] 0 [] (by simp)
  have hstep2 : PoolStep (fun _ => some "2.1.0")
      ⟨[], ({ name := "requests", required_version := "2.0.0" } : Package) ::ₘ 0, []⟩
      ⟨[], 0, [enrich { name := "requests", required_version := "2.0.0" }
        (some "2.1.0")]⟩ := by
    have h : PoolStep (fun _ => some "2.1.0")
        ⟨[], ({ name := "requests", required_version := "2.0.0" } : Package) ::ₘ 0, []⟩
        ⟨[], (({ name := "requests", required_version := "2.0.0" } : Package) ::ₘ 0).erase
            { name := "requests", required_version := "2.0.0" },
          [enrich { name := "requests", required_version := "2.0.0" } (some "2.1.0")]⟩ :=
      PoolStep.finish _ _ _ _ (Multiset.mem_cons_self _ _)
    simpa [Multiset.erase_cons_head] using h
  have hreach : PoolReach (fun _ => some "2.1.0")
      (initState [{ name := "requests", required_version := "2.0.0" }])
      ⟨[], 0, [enrich { name := "requests", required_version := "2.0.0" }
        (some "2.1.0")]⟩ :=
    PoolReach.step (PoolReach.step PoolReach.refl hstep1) hstep2
  have hquiet : Quiescent ⟨[], 0,
      [enrich { name := "requests", required_version := "2.0.0" } (some "2.1.0")]⟩ :=
    ⟨rfl, rfl⟩
  exact ⟨hin, hreach, hquiet,
    (fetch_pipeline_complete _ _ _ hin hreach hquiet).1⟩
